import Mathlib

/- Shallow embedding of the Kaleidoscope-tutorial lexer and parser
   (src/parser.cpp).  The character input stream is a `List Char`; the C
   global `last_char` is an `Option Char` (`none` models EOF having been
   read); the parser state carries the current token, the lexer state and
   the binary-operator precedence table.  Numeric values are exact
   rationals: the lexer only ever hands digit-and-dot strings to `strtod`,
   whose value is an exact decimal. -/

/-- C `isspace` (default locale, ASCII range). -/
def isspace (c : Char) : Bool :=
  c = ' ' || c = '\t' || c = '\n' || c = '\x0b' || c = '\x0c' || c = '\r'

/-- C `isalpha` (default locale, ASCII range). -/
def isalpha (c : Char) : Bool :=
  ('a' ≤ c && c ≤ 'z') || ('A' ≤ c && c ≤ 'Z')

/-- C `isdigit`. -/
def isdigit (c : Char) : Bool := '0' ≤ c && c ≤ '9'

/-- C `isalnum`. -/
def isalnum (c : Char) : Bool := isalpha c || isdigit c

/-- C `isascii`. -/
def isascii (c : Char) : Bool := c.toNat ≤ 127

/-- The token type of the lexer: `tok_eof`, `tok_def`, `tok_extern`,
`tok_identifier` (with the `identifier_str` payload), `tok_number` (with
the `num_val` payload) and a plain character returned as itself. -/
inductive Token where
  | tok_eof
  | tok_def
  | tok_extern
  | tok_identifier (s : String)
  | tok_number (v : ℚ)
  | tok_char (c : Char)
deriving DecidableEq

/-- Value of a digit string, most significant first. -/
def digitsVal (l : List Char) : ℕ :=
  l.foldl (fun acc c => 10 * acc + (c.toNat - '0'.toNat)) 0

/-- C `strtod` on the strings the lexer can produce (digits and dots
only): the longest valid prefix is digits, an optional dot, then digits;
its exact decimal value is returned (0 when there is no digit, as strtod
returns 0.0 when no conversion is performed). -/
def strtod (s : String) : ℚ :=
  let l := s.toList
  let ip := l.takeWhile (fun c => isdigit c)
  let rest := l.drop ip.length
  match rest with
  | '.' :: r =>
      let fp := r.takeWhile (fun c => isdigit c)
      (digitsVal ip : ℚ) + (digitsVal fp : ℚ) / (10 : ℚ) ^ fp.length
  | _ => (digitsVal ip : ℚ)

/-- The whitespace-skipping loop at the top of `getTok`:
`while (isspace(last_char)) last_char = getchar();`. -/
def skipWS : Option Char → List Char → Option Char × List Char
  | none, input => (none, input)
  | some c, input =>
    if isspace c then
      match input with
      | [] => (none, [])
      | d :: rest => skipWS (some d) rest
    else (some c, input)

/-- The identifier loop of `getTok`:
`while (isalnum((last_char = getchar()))) identifier_str += last_char;`. -/
def lexIdent (acc : String) : List Char → String × Option Char × List Char
  | [] => (acc, none, [])
  | c :: rest =>
    if isalnum c then lexIdent (acc.push c) rest else (acc, some c, rest)

/-- The number loop of `getTok`:
`do { num_str += last_char; last_char = getchar(); } while (isdigit(last_char) || last_char == '.');`
(the first character is already in `acc`). -/
def lexNum (acc : String) : List Char → String × Option Char × List Char
  | [] => (acc, none, [])
  | c :: rest =>
    if isdigit c || c = '.' then lexNum (acc.push c) rest
    else (acc, some c, rest)

/-- `getTok`: returns the next token, the new `last_char` and the rest of
the input. -/
def getTok (lc : Option Char) (input : List Char) :
    Token × Option Char × List Char :=
  match skipWS lc input with
  | (none, input₁) => (Token.tok_eof, none, input₁)
  | (some c, input₁) =>
    if isalpha c then
      match lexIdent (String.singleton c) input₁ with
      | (s, lc₁, input₂) =>
        (if s = "def" then Token.tok_def
         else if s = "extern" then Token.tok_extern
         else Token.tok_identifier s, lc₁, input₂)
    else if isdigit c || c = '.' then
      match lexNum (String.singleton c) input₁ with
      | (s, lc₁, input₂) => (Token.tok_number (strtod s), lc₁, input₂)
    else
      match input₁ with
      | [] => (Token.tok_char c, none, [])
      | d :: rest => (Token.tok_char c, some d, rest)

/-- The expression AST: `NumberExprAST`, `VariableExprAST`,
`BinaryExprAST` and `CallExprAST` of src/parser.cpp. -/
inductive ExprAST where
  | NumberExprAST (val : ℚ)
  | VariableExprAST (name : String)
  | BinaryExprAST (op : Char) (lhs rhs : ExprAST)
  | CallExprAST (callee : String) (args : List ExprAST)

/-- `PrototypeAST`: a function name and its argument names. -/
structure PrototypeAST where
  name : String
  args : List String
deriving DecidableEq

/-- `FunctionAST`: a prototype and a body expression. -/
structure FunctionAST where
  proto : PrototypeAST
  body : ExprAST

/-- The `BinopPrecedence` map: association list from operator character
to precedence. -/
abbrev PrecTable := List (Char × Int)

/-- Lookup in the precedence map. -/
def lookupPrec : PrecTable → Char → Option Int
  | [], _ => none
  | (d, v) :: rest, c => if d = c then some v else lookupPrec rest c

/-- `std::map::operator[]`: returns the mapped value, inserting a
value-initialized (`0`) entry when the key is absent. -/
def mapAccess (m : PrecTable) (c : Char) : Int × PrecTable :=
  match lookupPrec m c with
  | some v => (v, m)
  | none => (0, m ++ [(c, 0)])

/-- The precedence function the map denotes (absent keys behave as 0,
exactly the value `operator[]` would create for them). -/
def precOf (m : PrecTable) (c : Char) : Int :=
  match lookupPrec m c with
  | some v => v
  | none => 0

/-- The parser state: the one-token buffer `cur_tok`, the lexer state
(`last_char` and the remaining input), and the `BinopPrecedence` map. -/
structure ParserState where
  cur_tok : Token
  last_char : Option Char
  input : List Char
  prec : PrecTable
deriving DecidableEq

/-- `getNextToken`: reads another token from the lexer and updates
`cur_tok`. -/
def getNextToken (st : ParserState) : ParserState :=
  match getTok st.last_char st.input with
  | (t, lc, inp) => { st with cur_tok := t, last_char := lc, input := inp }

/-- `getTokPrecedence`: `-1` for non-ASCII tokens (the negative token
codes), else the mapped precedence when positive and `-1` otherwise.  The
`BinopPrecedence[cur_tok]` access goes through `operator[]`, so it can
insert a zero entry; the possibly-grown map is returned. -/
def getTokPrecedence (t : Token) (m : PrecTable) : Int × PrecTable :=
  match t with
  | Token.tok_char c =>
    if isascii c then
      match mapAccess m c with
      | (v, m₁) => if v ≤ 0 then (-1, m₁) else (v, m₁)
    else (-1, m)
  | _ => (-1, m)

/-- `parseNumberExpr`: build a `NumberExprAST` from `num_val` and
advance.  (Dispatched only when `cur_tok` is a number token, which
carries the `num_val` payload.) -/
def parseNumberExpr (st : ParserState) : Option ExprAST × ParserState :=
  match st.cur_tok with
  | Token.tok_number v => (some (ExprAST.NumberExprAST v), getNextToken st)
  | _ => (none, st)

mutual

/-- `parsePrimary`: dispatch on the current token; unknown tokens are a
syntax error (`logError` returns null).  The first argument is recursion
fuel (the C code recurses on the heap; any fuel at least the input length
suffices on real inputs, and fuel exhaustion returns failure). -/
def parsePrimary : ℕ → ParserState → Option ExprAST × ParserState
  | 0, st => (none, st)
  | fuel + 1, st =>
    match st.cur_tok with
    | Token.tok_identifier _ => parseIdentifierExpr fuel st
    | Token.tok_number _ => parseNumberExpr st
    | Token.tok_char c =>
      if c = '(' then parseParenExpr fuel st else (none, st)
    | _ => (none, st)

/-- `parseParenExpr`: eat `(`, parse an expression, require and eat `)`;
the inner tree is returned directly. -/
def parseParenExpr : ℕ → ParserState → Option ExprAST × ParserState
  | 0, st => (none, st)
  | fuel + 1, st =>
    let st₁ := getNextToken st
    match parseExpression fuel st₁ with
    | (none, st₂) => (none, st₂)
    | (some v, st₂) =>
      if st₂.cur_tok = Token.tok_char ')' then (some v, getNextToken st₂)
      else (none, st₂)

/-- `parseIdentifierExpr`: a variable reference, or a call when a `(`
follows the identifier. -/
def parseIdentifierExpr : ℕ → ParserState → Option ExprAST × ParserState
  | 0, st => (none, st)
  | fuel + 1, st =>
    match st.cur_tok with
    | Token.tok_identifier id_name =>
      let st₁ := getNextToken st
      if st₁.cur_tok = Token.tok_char '(' then
        let st₂ := getNextToken st₁
        if st₂.cur_tok = Token.tok_char ')' then
          (some (ExprAST.CallExprAST id_name []), getNextToken st₂)
        else
          match parseArgs fuel [] st₂ with
          | (none, st₃) => (none, st₃)
          | (some args, st₃) =>
            (some (ExprAST.CallExprAST id_name args), getNextToken st₃)
      else (some (ExprAST.VariableExprAST id_name), st₁)
    | _ => (none, st)

/-- The argument-list loop of `parseIdentifierExpr`: parse an expression,
then stop at `)`, continue past `,`, and fail on anything else. -/
def parseArgs : ℕ → List ExprAST → ParserState → Option (List ExprAST) × ParserState
  | 0, _, st => (none, st)
  | fuel + 1, args, st =>
    match parseExpression fuel st with
    | (none, st₁) => (none, st₁)
    | (some arg, st₁) =>
      let args₁ := args ++ [arg]
      if st₁.cur_tok = Token.tok_char ')' then (some args₁, st₁)
      else if st₁.cur_tok = Token.tok_char ',' then
        parseArgs fuel args₁ (getNextToken st₁)
      else (none, st₁)

/-- `parseBinOpRHS`: operator-precedence climbing.  One call of the
function models one iteration of the C `while (true)` loop; continuing
the loop is the tail call.  When the precedence test passes, the current
token is necessarily an operator character (the precedence of every
other token is `-1`); the impossible branch fails. -/
def parseBinOpRHS : ℕ → Int → ExprAST → ParserState → Option ExprAST × ParserState
  | 0, _, _, st => (none, st)
  | fuel + 1, expr_prec, lhs, st =>
    match getTokPrecedence st.cur_tok st.prec with
    | (tok_prec, m₁) =>
      let st₁ := { st with prec := m₁ }
      if tok_prec < expr_prec then (some lhs, st₁)
      else
        match st₁.cur_tok with
        | Token.tok_char bin_op =>
          let st₂ := getNextToken st₁
          match parsePrimary fuel st₂ with
          | (none, st₃) => (none, st₃)
          | (some rhs, st₃) =>
            match getTokPrecedence st₃.cur_tok st₃.prec with
            | (next_prec, m₂) =>
              let st₄ := { st₃ with prec := m₂ }
              if tok_prec < next_prec then
                match parseBinOpRHS fuel (tok_prec + 1) rhs st₄ with
                | (none, st₅) => (none, st₅)
                | (some rhs₁, st₅) =>
                  parseBinOpRHS fuel expr_prec
                    (ExprAST.BinaryExprAST bin_op lhs rhs₁) st₅
              else
                parseBinOpRHS fuel expr_prec
                  (ExprAST.BinaryExprAST bin_op lhs rhs) st₄
        | _ => (none, st₁)

/-- `parseExpression`: a primary followed by the binary-operator chain at
minimum precedence 0. -/
def parseExpression : ℕ → ParserState → Option ExprAST × ParserState
  | 0, st => (none, st)
  | fuel + 1, st =>
    match parsePrimary fuel st with
    | (none, st₁) => (none, st₁)
    | (some lhs, st₁) => parseBinOpRHS fuel 0 lhs st₁

end

/-- The argument-name loop of `parsePrototype`:
`while (getNextToken() == tok_identifier) arg_names.push_back(identifier_str);`. -/
def readArgNames : ℕ → List String → ParserState → List String × ParserState
  | 0, acc, st => (acc, st)
  | fuel + 1, acc, st =>
    let st₁ := getNextToken st
    match st₁.cur_tok with
    | Token.tok_identifier s => readArgNames fuel (acc ++ [s]) st₁
    | _ => (acc, st₁)

/-- `parsePrototype`: function name, `(`, argument names, `)`. -/
def parsePrototype (fuel : ℕ) (st : ParserState) :
    Option PrototypeAST × ParserState :=
  match st.cur_tok with
  | Token.tok_identifier fn_name =>
    let st₁ := getNextToken st
    if st₁.cur_tok = Token.tok_char '(' then
      match readArgNames fuel [] st₁ with
      | (arg_names, st₂) =>
        if st₂.cur_tok = Token.tok_char ')' then
          (some ⟨fn_name, arg_names⟩, getNextToken st₂)
        else (none, st₂)
    else (none, st₁)
  | _ => (none, st)

/-- `parseDefinition`: eat `def`, a prototype, then a body expression. -/
def parseDefinition (fuel : ℕ) (st : ParserState) :
    Option FunctionAST × ParserState :=
  let st₁ := getNextToken st
  match parsePrototype fuel st₁ with
  | (none, st₂) => (none, st₂)
  | (some proto, st₂) =>
    match parseExpression fuel st₂ with
    | (none, st₃) => (none, st₃)
    | (some e, st₃) => (some ⟨proto, e⟩, st₃)

/-- `parseTopLevelExpr`: one expression wrapped in an anonymous
prototype. -/
def parseTopLevelExpr (fuel : ℕ) (st : ParserState) :
    Option FunctionAST × ParserState :=
  match parseExpression fuel st with
  | (none, st₁) => (none, st₁)
  | (some e, st₁) => (some ⟨⟨"", []⟩, e⟩, st₁)

/-- `parseExtern`: eat `extern`, then a prototype. -/
def parseExtern (fuel : ℕ) (st : ParserState) :
    Option PrototypeAST × ParserState :=
  parsePrototype fuel (getNextToken st)

/-- `handleDefinition`: on failure skip one token for error recovery; the
parsed tree is only reported, never surfaced. -/
def handleDefinition (fuel : ℕ) (st : ParserState) : ParserState :=
  match parseDefinition fuel st with
  | (some _, st₁) => st₁
  | (none, st₁) => getNextToken st₁

/-- `handleExtern`: on failure skip one token for error recovery. -/
def handleExtern (fuel : ℕ) (st : ParserState) : ParserState :=
  match parseExtern fuel st with
  | (some _, st₁) => st₁
  | (none, st₁) => getNextToken st₁

/-- `handleTopLevelExpression`: on failure skip one token for error
recovery. -/
def handleTopLevelExpression (fuel : ℕ) (st : ParserState) : ParserState :=
  match parseTopLevelExpr fuel st with
  | (some _, st₁) => st₁
  | (none, st₁) => getNextToken st₁

/-- One iteration of `mainLoop`: `none` means the loop returns
(`tok_eof`); otherwise the state after the dispatched handler (or after
skipping a top-level `;`). -/
def mainLoopStep (fuel : ℕ) (st : ParserState) : Option ParserState :=
  match st.cur_tok with
  | Token.tok_eof => none
  | Token.tok_def => some (handleDefinition fuel st)
  | Token.tok_extern => some (handleExtern fuel st)
  | Token.tok_char c =>
    if c = ';' then some (getNextToken st)
    else some (handleTopLevelExpression fuel st)
  | _ => some (handleTopLevelExpression fuel st)

/-- The `BinopPrecedence` contents installed by `main`. -/
def initPrec : PrecTable := [('<', 10), ('+', 20), ('-', 20), ('*', 40)]

/-- The state after `main` primes the first token: `last_char` starts as
a space, the precedence table holds the four standard operators, and one
token has been read. -/
def initState (s : String) : ParserState :=
  match getTok (some ' ') s.toList with
  | (t, lc, inp) => { cur_tok := t, last_char := lc, input := inp, prec := initPrec }

/-- Run `parseExpression` with given fuel on a string, from the state
`main` would reach after priming the first token. -/
def runParseExpression (fuel : ℕ) (s : String) : Option ExprAST :=
  (parseExpression fuel (initState s)).1

/-- `parseExpression` on a string with ample fuel. -/
def parseExpressionFromString (s : String) : Option ExprAST :=
  runParseExpression (2 * s.length + 2) s

/-- Number of characters a lookahead slot holds. -/
def lcCount : Option Char → ℕ
  | none => 0
  | some _ => 1

/-- Characters not yet consumed by the lexer. -/
def charCount (lc : Option Char) (input : List Char) : ℕ :=
  input.length + lcCount lc

/-- Unconsumed characters plus the pending token: the measure the driver
loop strictly decreases. -/
def tokCount (st : ParserState) : ℕ :=
  charCount st.last_char st.input +
    (if st.cur_tok = Token.tok_eof then 0 else 1)

/-- The token-stream position (current token, lookahead, input) is
unchanged; the precedence table may still differ. -/
def Unch (st st' : ParserState) : Prop :=
  st'.cur_tok = st.cur_tok ∧ st'.last_char = st.last_char ∧
    st'.input = st.input

/-- The four operator characters `main` registers. -/
def isRegisteredOp (c : Char) : Bool :=
  c = '<' || c = '+' || c = '-' || c = '*'

mutual

/-- Every `BinaryExprAST` node in the tree carries a registered operator
character. -/
def goodOps : ExprAST → Bool
  | ExprAST.NumberExprAST _ => true
  | ExprAST.VariableExprAST _ => true
  | ExprAST.BinaryExprAST op l r => isRegisteredOp op && goodOps l && goodOps r
  | ExprAST.CallExprAST _ args => goodOpsList args

/-- `goodOps` over every element of a list. -/
def goodOpsList : List ExprAST → Bool
  | [] => true
  | e :: es => goodOps e && goodOpsList es

end

/-- Every positive entry of the precedence table is a registered
operator character. -/
def GoodTable (m : PrecTable) : Prop :=
  ∀ c, 0 < precOf m c → isRegisteredOp c = true

/- ------------------------------------------------------------------ -/
/- Helper lemmas                                                       -/
/- ------------------------------------------------------------------ -/

theorem lookupPrec_append (m : PrecTable) (c c' : Char) :
    lookupPrec (m ++ [(c, 0)]) c' =
      match lookupPrec m c' with
      | some v => some v
      | none => if c = c' then some 0 else none := by
  induction m with
  | nil => simp [lookupPrec]
  | cons p rest ih =>
    obtain ⟨d, v⟩ := p
    by_cases h : d = c'
    · simp [lookupPrec, h]
    · simp [lookupPrec, h, ih]

theorem precOf_mapAccess (m : PrecTable) (c c' : Char) :
    precOf (mapAccess m c).2 c' = precOf m c' := by
  unfold mapAccess
  cases h : lookupPrec m c with
  | some v => simp
  | none =>
    unfold precOf
    rw [lookupPrec_append]
    cases h' : lookupPrec m c' with
    | some v => simp
    | none => by_cases hc : c = c' <;> simp [hc]

theorem mem_mapAccess (m : PrecTable) (c : Char) (p : Char × Int)
    (hp : p ∈ m) : p ∈ (mapAccess m c).2 := by
  unfold mapAccess
  cases lookupPrec m c with
  | some v => simpa using hp
  | none => simp [hp]

theorem mapAccess_mem (m : PrecTable) (c : Char) (p : Char × Int)
    (hp : p ∈ (mapAccess m c).2) : p ∈ m ∨ p.2 = 0 := by
  unfold mapAccess at hp
  cases h : lookupPrec m c with
  | some v => rw [h] at hp; exact Or.inl (by simpa using hp)
  | none =>
    rw [h] at hp
    simp only [List.mem_append, List.mem_singleton] at hp
    rcases hp with h' | h'
    · exact Or.inl h'
    · right; rw [h']

theorem strtod_dot : strtod "." = 0 := by
  simp [strtod, digitsVal, isdigit]

theorem getTok_none (input : List Char) :
    getTok none input = (Token.tok_eof, none, input) := by
  simp [getTok, skipWS]

theorem getNextToken_of_lc_none (st : ParserState) (h : st.last_char = none) :
    getNextToken st = { st with cur_tok := Token.tok_eof } := by
  obtain ⟨t, lc, inp, m⟩ := st
  simp only at h
  subst h
  simp [getNextToken, getTok_none]

/- ------------------------------------------------------------------ -/
/- Claims                                                              -/
/- ------------------------------------------------------------------ -/

/-- C1: parsing "1+2*3" yields '+' at the root with the '*' subtree on
the right: the higher-precedence '*' binds tighter than '+'. -/
theorem C1_mul_binds_tighter_than_add :
    parseExpressionFromString "1+2*3" =
      some (ExprAST.BinaryExprAST '+' (ExprAST.NumberExprAST 1)
        (ExprAST.BinaryExprAST '*' (ExprAST.NumberExprAST 2)
          (ExprAST.NumberExprAST 3))) := rfl

/-- C2: operators of equal precedence associate to the left: parsing
"1-2-3" yields a left-nested tree. -/
theorem C2_equal_precedence_left_assoc :
    parseExpressionFromString "1-2-3" =
      some (ExprAST.BinaryExprAST '-'
        (ExprAST.BinaryExprAST '-' (ExprAST.NumberExprAST 1)
          (ExprAST.NumberExprAST 2))
        (ExprAST.NumberExprAST 3)) := rfl

/-- C3: parentheses group at parse time only — "(1+2)*3" yields the '*'
tree whose left child is the '+' tree with no grouping node — and a
missing ')' is a syntax error: no node is returned. -/
theorem C3_paren_grouping_and_missing_paren_error :
    parseExpressionFromString "(1+2)*3" =
      some (ExprAST.BinaryExprAST '*'
        (ExprAST.BinaryExprAST '+' (ExprAST.NumberExprAST 1)
          (ExprAST.NumberExprAST 2))
        (ExprAST.NumberExprAST 3)) ∧
    parseExpressionFromString "(1+2" = none := ⟨rfl, rfl⟩

/-- C4: an identifier not followed by '(' is a variable reference;
otherwise a call with its comma-separated arguments in input order, the
empty list when ')' immediately follows, and a failure when an argument
is followed by neither ')' nor ','. -/
theorem C4_identifier_and_call_parsing :
    parseExpressionFromString "foo(1, x)" =
      some (ExprAST.CallExprAST "foo"
        [ExprAST.NumberExprAST 1, ExprAST.VariableExprAST "x"]) ∧
    parseExpressionFromString "foo()" =
      some (ExprAST.CallExprAST "foo" []) ∧
    parseExpressionFromString "foo" =
      some (ExprAST.VariableExprAST "foo") ∧
    parseExpressionFromString "foo(1 2)" = none :=
  ⟨rfl, rfl, rfl, rfl⟩

/-- C5 counterexample: querying the precedence of the unregistered ASCII
character '(' does not leave the table's entry set unchanged — the
`operator[]` access inserts the entry ('(', 0). -/
theorem C5_counterexample_query_inserts_entry :
    (getTokPrecedence (Token.tok_char '(') initPrec).2 ≠ initPrec := by
  decide

/-- C5 (amended): a precedence query never changes the precedence any
character maps to (absent keys reading as 0), never removes or alters an
existing entry, and any entry it adds has value 0 — in particular the
four positive registered entries are preserved verbatim, though the
entry set itself can grow by zero-valued entries for queried ASCII
characters. -/
theorem C5_query_preserves_precedences (t : Token) (m : PrecTable) :
    (∀ c, precOf (getTokPrecedence t m).2 c = precOf m c) ∧
    (∀ p : Char × Int, p ∈ m → p ∈ (getTokPrecedence t m).2) ∧
    (∀ p : Char × Int, p ∈ (getTokPrecedence t m).2 → p ∈ m ∨ p.2 = 0) := by
  have key : (getTokPrecedence t m).2 = m ∨
      ∃ c, (getTokPrecedence t m).2 = (mapAccess m c).2 := by
    cases t with
    | tok_char c =>
      by_cases hc : isascii c = true
      · rcases hm : mapAccess m c with ⟨v, m₁⟩
        right
        refine ⟨c, ?_⟩
        by_cases hv : v ≤ 0 <;> simp [getTokPrecedence, hc, hm, hv]
      · left; simp [getTokPrecedence, hc]
    | tok_eof => left; rfl
    | tok_def => left; rfl
    | tok_extern => left; rfl
    | tok_identifier s => left; rfl
    | tok_number v => left; rfl
  rcases key with h | ⟨c, h⟩
  · rw [h]
    exact ⟨fun _ => rfl, fun p hp => hp, fun p hp => Or.inl hp⟩
  · rw [h]
    exact ⟨fun c' => precOf_mapAccess m c c', mem_mapAccess m c, mapAccess_mem m c⟩

/-- C5 witness: the query for ';' keeps '+' mapped to 20 and keeps the
entry ('+', 20). -/
theorem C5_witness :
    precOf (getTokPrecedence (Token.tok_char ';') initPrec).2 '+' =
      precOf initPrec '+' ∧
    ('+', (20 : Int)) ∈ (getTokPrecedence (Token.tok_char ';') initPrec).2 :=
  ⟨(C5_query_preserves_precedences (Token.tok_char ';') initPrec).1 '+',
   (C5_query_preserves_precedences (Token.tok_char ';') initPrec).2.1
     ('+', (20 : Int)) (by decide)⟩

/-- C8: once the input source is exhausted (`last_char` holds the EOF
marker), any positive number of further `getNextToken` calls returns the
end token and leaves the lexer state (lookahead and remaining input)
unchanged. -/
theorem C8_lexer_idempotent_at_eof (st : ParserState) (n : ℕ)
    (hlc : st.last_char = none) (hn : 1 ≤ n) :
    getNextToken^[n] st = { st with cur_tok := Token.tok_eof } := by
  induction n with
  | zero => omega
  | succ k ih =>
    rcases Nat.eq_or_lt_of_le hn with h1 | h1
    · rw [← h1]
      simpa using getNextToken_of_lc_none st hlc
    · have hk : 1 ≤ k := by omega
      rw [Function.iterate_succ_apply', ih hk]
      exact getNextToken_of_lc_none _ hlc

/-- C8 witness. -/
theorem C8_witness :
    getNextToken^[2]
        { cur_tok := Token.tok_eof, last_char := none, input := [],
          prec := [] } =
      { cur_tok := Token.tok_eof, last_char := none, input := [],
        prec := ([] : PrecTable) } :=
  C8_lexer_idempotent_at_eof _ 2 rfl (by decide)

/-- C10: when the current character is '.' and the next character is
neither a digit nor '.', the lexer hands the buffer "." to `strtod` and
returns a number token of value 0.0 — a bare '.' is lexed as a numeric
literal, not as a punctuation token. -/
theorem C10_bare_dot_is_number_zero (c : Char) (input : List Char)
    (h1 : isdigit c = false) (h2 : c ≠ '.') :
    getTok (some '.') (c :: input) = (Token.tok_number 0, some c, input) := by
  have hdot : strtod (String.singleton '.') = 0 := strtod_dot
  simp only [isdigit] at h1
  simp [getTok, skipWS, isspace, isalpha, isdigit, lexNum, h1, h2, hdot]

/-- C10 witness: a '.' followed by '+' lexes as the number 0. -/
theorem C10_witness :
    isdigit '+' = false ∧ '+' ≠ '.' ∧
    getTok (some '.') ['+'] = (Token.tok_number 0, some '+', []) :=
  ⟨by decide, by decide, C10_bare_dot_is_number_zero '+' [] (by decide) (by decide)⟩

/- ------------------------------------------------------------------ -/
/- Progress: the driver loop consumes input                            -/
/- ------------------------------------------------------------------ -/


theorem Unch.refl (st : ParserState) : Unch st st := ⟨rfl, rfl, rfl⟩

theorem Unch.tokCount_eq {st st' : ParserState} (h : Unch st st') :
    tokCount st' = tokCount st := by
  obtain ⟨h1, h2, h3⟩ := h
  simp [tokCount, charCount, h1, h2, h3]

theorem skipWS_le (input : List Char) : ∀ lc,
    charCount (skipWS lc input).1 (skipWS lc input).2 ≤ charCount lc input := by
  induction input with
  | nil =>
    intro lc
    cases lc with
    | none => simp [skipWS]
    | some c =>
      by_cases h : isspace c = true <;>
        simp [skipWS, h, charCount, lcCount]
  | cons d rest ih =>
    intro lc
    cases lc with
    | none => simp [skipWS]
    | some c =>
      by_cases h : isspace c = true
      · have hih := ih (some d)
        simp only [skipWS, h, if_true]
        simp only [charCount, lcCount, List.length_cons] at hih ⊢
        omega
      · simp [skipWS, h]

theorem lexIdent_le (input : List Char) : ∀ acc,
    (lexIdent acc input).2.2.length + lcCount (lexIdent acc input).2.1 ≤
      input.length := by
  induction input with
  | nil => intro acc; simp [lexIdent, lcCount]
  | cons c rest ih =>
    intro acc
    by_cases h : isalnum c = true
    · have hih := ih (acc.push c)
      simp only [lexIdent, h, if_true, List.length_cons]
      omega
    · simp [lexIdent, h, lcCount]

theorem lexNum_le (input : List Char) : ∀ acc,
    (lexNum acc input).2.2.length + lcCount (lexNum acc input).2.1 ≤
      input.length := by
  induction input with
  | nil => intro acc; simp [lexNum, lcCount]
  | cons c rest ih =>
    intro acc
    by_cases h : (isdigit c || c = '.') = true
    · have hih := ih (acc.push c)
      simp only [lexNum, h, if_true, List.length_cons]
      omega
    · simp [lexNum, h, lcCount]

theorem getTok_count (lc : Option Char) (input : List Char) :
    ((getTok lc input).1 = Token.tok_eof ∧
      charCount (getTok lc input).2.1 (getTok lc input).2.2 ≤
        charCount lc input) ∨
    charCount (getTok lc input).2.1 (getTok lc input).2.2 <
      charCount lc input := by
  have hws := skipWS_le input lc
  rcases hs : skipWS lc input with ⟨olc, in₁⟩
  rw [hs] at hws
  cases olc with
  | none =>
    left
    constructor
    · simp [getTok, hs]
    · simp only [getTok, hs]
      exact hws
  | some c =>
    right
    have h1c : lcCount (some c) = 1 := rfl
    simp only [charCount, h1c] at hws
    by_cases ha : isalpha c = true
    · rcases hid : lexIdent (String.singleton c) in₁ with ⟨s, lc₁, in₂⟩
      have hl : in₂.length + lcCount lc₁ ≤ in₁.length := by
        have h0 := lexIdent_le in₁ (String.singleton c)
        rw [hid] at h0
        exact h0
      simp only [getTok, hs, ha, if_true, hid]
      by_cases h1 : s = "def" <;> by_cases h2 : s = "extern" <;>
        simp [h1, h2, charCount] <;> omega
    · by_cases hd : (isdigit c || c = '.') = true
      · rcases hnm : lexNum (String.singleton c) in₁ with ⟨s, lc₁, in₂⟩
        have hl : in₂.length + lcCount lc₁ ≤ in₁.length := by
          have h0 := lexNum_le in₁ (String.singleton c)
          rw [hnm] at h0
          exact h0
        simp only [getTok, hs, ha, hd, if_true, if_false, Bool.false_eq_true,
          hnm]
        simp only [charCount]
        omega
      · cases in₁ with
        | nil =>
          simp only [getTok, hs, ha, hd]
          simp [charCount, lcCount] at hws ⊢
          omega
        | cons d rest =>
          simp only [getTok, hs, ha, hd]
          simp [charCount, lcCount, List.length_cons] at hws ⊢
          omega

theorem tokCount_getNextToken_le (st : ParserState) :
    tokCount (getNextToken st) ≤ tokCount st := by
  have h := getTok_count st.last_char st.input
  rcases hg : getTok st.last_char st.input with ⟨t, lc, inp⟩
  rw [hg] at h
  simp only [getNextToken, hg]
  rcases h with ⟨he, hle⟩ | hlt
  · simp only at he
    simp [tokCount, charCount, he] at hle ⊢
    split <;> simp [lcCount] at hle ⊢ <;> omega
  · simp only at hlt
    simp only [tokCount, charCount] at hlt ⊢
    split <;> split <;> simp [lcCount] at hlt ⊢ <;> omega

theorem tokCount_getNextToken_lt (st : ParserState)
    (h : st.cur_tok ≠ Token.tok_eof) :
    tokCount (getNextToken st) < tokCount st := by
  have hc := getTok_count st.last_char st.input
  rcases hg : getTok st.last_char st.input with ⟨t, lc, inp⟩
  rw [hg] at hc
  simp only [getNextToken, hg]
  rcases hc with ⟨he, hle⟩ | hlt
  · simp only at he
    simp only [tokCount, charCount, he] at hle ⊢
    simp [h, lcCount] at hle ⊢
    omega
  · simp only at hlt
    simp only [tokCount, charCount] at hlt ⊢
    simp [h]
    split <;> omega

theorem getNextToken_prec (st : ParserState) :
    (getNextToken st).prec = st.prec := by
  rcases h : getTok st.last_char st.input with ⟨t, lc, inp⟩
  simp [getNextToken, h]

theorem parseNumberExpr_progress (st : ParserState) :
    tokCount (parseNumberExpr st).2 < tokCount st ∨
      (Unch st (parseNumberExpr st).2 ∧ (parseNumberExpr st).1 = none) := by
  unfold parseNumberExpr
  split
  · rename_i v h
    left
    exact tokCount_getNextToken_lt st (by simp [h])
  · right
    exact ⟨Unch.refl st, rfl⟩

theorem parser_progress (fuel : ℕ) :
    (∀ st, tokCount (parsePrimary fuel st).2 < tokCount st ∨
      (Unch st (parsePrimary fuel st).2 ∧ (parsePrimary fuel st).1 = none)) ∧
    (∀ st, st.cur_tok = Token.tok_char '(' →
      (tokCount (parseParenExpr fuel st).2 < tokCount st ∨
        (Unch st (parseParenExpr fuel st).2 ∧
          (parseParenExpr fuel st).1 = none))) ∧
    (∀ st, tokCount (parseIdentifierExpr fuel st).2 < tokCount st ∨
      (Unch st (parseIdentifierExpr fuel st).2 ∧
        (parseIdentifierExpr fuel st).1 = none)) ∧
    (∀ args st, tokCount (parseArgs fuel args st).2 < tokCount st ∨
      (Unch st (parseArgs fuel args st).2 ∧ (parseArgs fuel args st).1 = none)) ∧
    (∀ prec lhs st, tokCount (parseBinOpRHS fuel prec lhs st).2 < tokCount st ∨
      Unch st (parseBinOpRHS fuel prec lhs st).2) ∧
    (∀ st, tokCount (parseExpression fuel st).2 < tokCount st ∨
      (Unch st (parseExpression fuel st).2 ∧
        (parseExpression fuel st).1 = none)) := by
  induction fuel with
  | zero =>
    exact ⟨fun st => Or.inr ⟨Unch.refl st, rfl⟩,
      fun st _ => Or.inr ⟨Unch.refl st, rfl⟩,
      fun st => Or.inr ⟨Unch.refl st, rfl⟩,
      fun args st => Or.inr ⟨Unch.refl st, rfl⟩,
      fun prec lhs st => Or.inr (Unch.refl st),
      fun st => Or.inr ⟨Unch.refl st, rfl⟩⟩
  | succ n ih =>
    obtain ⟨ihP, ihParen, ihId, ihArgs, ihBin, ihExpr⟩ := ih
    have hParen : ∀ st, st.cur_tok = Token.tok_char '(' →
        tokCount (parseParenExpr (n + 1) st).2 < tokCount st := by
      intro st hst
      have h1 : tokCount (getNextToken st) < tokCount st :=
        tokCount_getNextToken_lt st (by simp [hst])
      simp only [parseParenExpr]
      rcases he : parseExpression n (getNextToken st) with ⟨r, st₂⟩
      have h2 : tokCount st₂ ≤ tokCount (getNextToken st) := by
        have hE := ihExpr (getNextToken st)
        rw [he] at hE
        rcases hE with h | ⟨hu, _⟩
        · exact le_of_lt h
        · exact le_of_eq hu.tokCount_eq
      cases r with
      | none =>
        simp only [he]
        omega
      | some v =>
        by_cases hrp : st₂.cur_tok = Token.tok_char ')'
        · simp only [he, hrp, if_true]
          have h3 := tokCount_getNextToken_le st₂
          omega
        · simp only [he, hrp, if_false]
          omega
    have hExpr : ∀ st, tokCount (parseExpression (n + 1) st).2 < tokCount st ∨
        (Unch st (parseExpression (n + 1) st).2 ∧
          (parseExpression (n + 1) st).1 = none) := by
      intro st
      simp only [parseExpression]
      rcases hp : parsePrimary n st with ⟨r, st₁⟩
      have hP := ihP st
      rw [hp] at hP
      cases r with
      | none =>
        simp only [hp]
        rcases hP with h | ⟨hu, _⟩
        · exact Or.inl h
        · exact Or.inr ⟨hu, by trivial⟩
      | some lhs =>
        have hlt : tokCount st₁ < tokCount st := by
          rcases hP with h | ⟨_, hn⟩
          · exact h
          · simp at hn
        simp only [hp]
        left
        rcases ihBin 0 lhs st₁ with h | hu
        · omega
        · have := hu.tokCount_eq
          omega
    have hPrim : ∀ st, tokCount (parsePrimary (n + 1) st).2 < tokCount st ∨
        (Unch st (parsePrimary (n + 1) st).2 ∧
          (parsePrimary (n + 1) st).1 = none) := by
      intro st
      cases hst : st.cur_tok with
      | tok_identifier s =>
        have h := ihId st
        simpa [parsePrimary, hst] using h
      | tok_number v =>
        have h := parseNumberExpr_progress st
        simpa [parsePrimary, hst] using h
      | tok_char c =>
        by_cases hc : c = '('
        · subst hc
          have h := ihParen st hst
          simpa [parsePrimary, hst] using h
        · right
          refine ⟨?_, by simp [parsePrimary, hst, hc]⟩
          simp only [parsePrimary, hst, hc, if_false]
          exact Unch.refl st
      | tok_eof =>
        right
        refine ⟨?_, by simp [parsePrimary, hst]⟩
        simp only [parsePrimary, hst]
        exact Unch.refl st
      | tok_def =>
        right
        refine ⟨?_, by simp [parsePrimary, hst]⟩
        simp only [parsePrimary, hst]
        exact Unch.refl st
      | tok_extern =>
        right
        refine ⟨?_, by simp [parsePrimary, hst]⟩
        simp only [parsePrimary, hst]
        exact Unch.refl st
    have hArgs : ∀ args st,
        tokCount (parseArgs (n + 1) args st).2 < tokCount st ∨
        (Unch st (parseArgs (n + 1) args st).2 ∧
          (parseArgs (n + 1) args st).1 = none) := by
      intro args st
      simp only [parseArgs]
      rcases he : parseExpression n st with ⟨r, st₁⟩
      have hE := ihExpr st
      rw [he] at hE
      cases r with
      | none =>
        simp only [he]
        rcases hE with h | ⟨hu, _⟩
        · exact Or.inl h
        · exact Or.inr ⟨hu, by trivial⟩
      | some arg =>
        have hlt : tokCount st₁ < tokCount st := by
          rcases hE with h | ⟨_, hn⟩
          · exact h
          · simp at hn
        simp only [he]
        left
        by_cases h1 : st₁.cur_tok = Token.tok_char ')'
        · rw [if_pos h1]
          exact hlt
        · rw [if_neg h1]
          by_cases h2 : st₁.cur_tok = Token.tok_char ','
          · rw [if_pos h2]
            have h3 := tokCount_getNextToken_le st₁
            have h4 : tokCount (parseArgs n (args ++ [arg])
                (getNextToken st₁)).2 ≤ tokCount (getNextToken st₁) := by
              rcases ihArgs (args ++ [arg]) (getNextToken st₁) with h | ⟨hu, _⟩
              · exact le_of_lt h
              · exact le_of_eq hu.tokCount_eq
            omega
          · rw [if_neg h2]
            exact hlt
    have hId : ∀ st,
        tokCount (parseIdentifierExpr (n + 1) st).2 < tokCount st ∨
        (Unch st (parseIdentifierExpr (n + 1) st).2 ∧
          (parseIdentifierExpr (n + 1) st).1 = none) := by
      intro st
      cases hst : st.cur_tok with
      | tok_identifier id_name =>
        left
        have h1 : tokCount (getNextToken st) < tokCount st :=
          tokCount_getNextToken_lt st (by simp [hst])
        simp only [parseIdentifierExpr, hst]
        by_cases hp : (getNextToken st).cur_tok = Token.tok_char '('
        · rw [if_pos hp]
          have h2 := tokCount_getNextToken_le (getNextToken st)
          by_cases hrp :
              (getNextToken (getNextToken st)).cur_tok = Token.tok_char ')'
          · rw [if_pos hrp]
            have h3 := tokCount_getNextToken_le (getNextToken (getNextToken st))
            show tokCount (getNextToken (getNextToken (getNextToken st))) <
              tokCount st
            have h4 := tokCount_getNextToken_le
              (getNextToken (getNextToken st))
            omega
          · rw [if_neg hrp]
            have h4 : tokCount (parseArgs n []
                (getNextToken (getNextToken st))).2 ≤
                tokCount (getNextToken (getNextToken st)) := by
              rcases ihArgs [] (getNextToken (getNextToken st)) with
                h | ⟨hu, _⟩
              · exact le_of_lt h
              · exact le_of_eq hu.tokCount_eq
            rcases ha : parseArgs n [] (getNextToken (getNextToken st)) with
              ⟨r, st₃⟩
            have h4' : tokCount st₃ ≤
                tokCount (getNextToken (getNextToken st)) := by
              rw [ha] at h4
              exact h4
            cases r with
            | none =>
              simp only [ha]
              show tokCount st₃ < tokCount st
              omega
            | some args =>
              simp only [ha]
              show tokCount (getNextToken st₃) < tokCount st
              have h5 := tokCount_getNextToken_le st₃
              omega
        · rw [if_neg hp]
          exact h1
      | tok_eof =>
        right
        refine ⟨?_, by simp [parseIdentifierExpr, hst]⟩
        simp only [parseIdentifierExpr, hst]
        exact Unch.refl st
      | tok_def =>
        right
        refine ⟨?_, by simp [parseIdentifierExpr, hst]⟩
        simp only [parseIdentifierExpr, hst]
        exact Unch.refl st
      | tok_extern =>
        right
        refine ⟨?_, by simp [parseIdentifierExpr, hst]⟩
        simp only [parseIdentifierExpr, hst]
        exact Unch.refl st
      | tok_number v =>
        right
        refine ⟨?_, by simp [parseIdentifierExpr, hst]⟩
        simp only [parseIdentifierExpr, hst]
        exact Unch.refl st
      | tok_char c =>
        right
        refine ⟨?_, by simp [parseIdentifierExpr, hst]⟩
        simp only [parseIdentifierExpr, hst]
        exact Unch.refl st
    have hBin : ∀ prec lhs st,
        tokCount (parseBinOpRHS (n + 1) prec lhs st).2 < tokCount st ∨
        Unch st (parseBinOpRHS (n + 1) prec lhs st).2 := by
      intro prec lhs st
      simp only [parseBinOpRHS]
      rcases hq : getTokPrecedence st.cur_tok st.prec with ⟨tp, m₁⟩
      simp only [hq]
      by_cases hcmp : tp < prec
      · simp only [hcmp, if_true]
        exact Or.inr ⟨rfl, rfl, rfl⟩
      · simp only [hcmp, if_false]
        cases hct : st.cur_tok with
        | tok_char bin_op =>
          left
          have htok : tokCount
              { cur_tok := Token.tok_char bin_op, last_char := st.last_char,
                input := st.input, prec := m₁ } = tokCount st := by
            simp [tokCount, hct]
          have h1 : tokCount (getNextToken
              { cur_tok := Token.tok_char bin_op, last_char := st.last_char,
                input := st.input, prec := m₁ }) < tokCount st := by
            have := tokCount_getNextToken_lt
              { cur_tok := Token.tok_char bin_op, last_char := st.last_char,
                input := st.input, prec := m₁ } (by simp)
            omega
          rcases hp : parsePrimary n (getNextToken
              { cur_tok := Token.tok_char bin_op, last_char := st.last_char,
                input := st.input, prec := m₁ }) with ⟨r, st₃⟩
          have hP := ihP (getNextToken
              { cur_tok := Token.tok_char bin_op, last_char := st.last_char,
                input := st.input, prec := m₁ })
          rw [hp] at hP
          have h2 : tokCount st₃ ≤ tokCount (getNextToken
              { cur_tok := Token.tok_char bin_op, last_char := st.last_char,
                input := st.input, prec := m₁ }) := by
            rcases hP with h | ⟨hu, _⟩
            · exact le_of_lt h
            · exact le_of_eq hu.tokCount_eq
          simp only [hp]
          cases r with
          | none =>
            show tokCount st₃ < tokCount st
            omega
          | some rhs =>
            rcases hq₂ : getTokPrecedence st₃.cur_tok st₃.prec with ⟨np, m₂⟩
            simp only [hq₂]
            have hmeq₂ : tokCount { st₃ with prec := m₂ } = tokCount st₃ := rfl
            by_cases hcmp₂ : tp < np
            · simp only [hcmp₂, if_true]
              have hRec1 : tokCount (parseBinOpRHS n (tp + 1) rhs
                  { st₃ with prec := m₂ }).2 ≤ tokCount st₃ := by
                rcases ihBin (tp + 1) rhs { st₃ with prec := m₂ } with h | hu
                · omega
                · have := hu.tokCount_eq
                  omega
              rcases hr : parseBinOpRHS n (tp + 1) rhs { st₃ with prec := m₂ }
                with ⟨r₂, st₅⟩
              have hRec1' : tokCount st₅ ≤ tokCount st₃ := by
                rw [hr] at hRec1
                exact hRec1
              cases r₂ with
              | none =>
                simp only [hr]
                show tokCount st₅ < tokCount st
                omega
              | some rhs₁ =>
                simp only [hr]
                have hRec2 : tokCount (parseBinOpRHS n prec
                    (ExprAST.BinaryExprAST bin_op lhs rhs₁) st₅).2 ≤
                    tokCount st₅ := by
                  rcases ihBin prec (ExprAST.BinaryExprAST bin_op lhs rhs₁) st₅
                    with h | hu
                  · exact le_of_lt h
                  · exact le_of_eq hu.tokCount_eq
                omega
            · simp only [hcmp₂, if_false]
              have hRec2 : tokCount (parseBinOpRHS n prec
                  (ExprAST.BinaryExprAST bin_op lhs rhs)
                  { st₃ with prec := m₂ }).2 ≤ tokCount st₃ := by
                rcases ihBin prec (ExprAST.BinaryExprAST bin_op lhs rhs)
                    { st₃ with prec := m₂ } with h | hu
                · omega
                · have := hu.tokCount_eq
                  omega
              omega
        | tok_eof =>
          refine Or.inr ⟨?_, rfl, rfl⟩
          simpa using hct.symm
        | tok_def =>
          refine Or.inr ⟨?_, rfl, rfl⟩
          simpa using hct.symm
        | tok_extern =>
          refine Or.inr ⟨?_, rfl, rfl⟩
          simpa using hct.symm
        | tok_identifier s =>
          refine Or.inr ⟨?_, rfl, rfl⟩
          simpa using hct.symm
        | tok_number v =>
          refine Or.inr ⟨?_, rfl, rfl⟩
          simpa using hct.symm
    exact ⟨hPrim, fun st h => Or.inl (hParen st h), hId, hArgs, hBin, hExpr⟩

theorem readArgNames_le (fuel : ℕ) : ∀ acc st,
    tokCount (readArgNames fuel acc st).2 ≤ tokCount st := by
  induction fuel with
  | zero => intro acc st; exact le_refl _
  | succ n ih =>
    intro acc st
    have h1 := tokCount_getNextToken_le st
    simp only [readArgNames]
    split
    · exact le_trans (ih _ _) h1
    · exact h1

theorem parsePrototype_progress (fuel : ℕ) (st : ParserState) :
    tokCount (parsePrototype fuel st).2 < tokCount st ∨
      (Unch st (parsePrototype fuel st).2 ∧
        (parsePrototype fuel st).1 = none) := by
  cases hst : st.cur_tok with
  | tok_identifier fn =>
    left
    have h1 : tokCount (getNextToken st) < tokCount st :=
      tokCount_getNextToken_lt st (by simp [hst])
    simp only [parsePrototype, hst]
    by_cases hp : (getNextToken st).cur_tok = Token.tok_char '('
    · rw [if_pos hp]
      have h2 : tokCount (readArgNames fuel [] (getNextToken st)).2 ≤
          tokCount (getNextToken st) := readArgNames_le fuel [] (getNextToken st)
      rcases hr : readArgNames fuel [] (getNextToken st) with ⟨names, st₂⟩
      have h2' : tokCount st₂ ≤ tokCount (getNextToken st) := by
        rw [hr] at h2
        exact h2
      by_cases hq : st₂.cur_tok = Token.tok_char ')'
      · rw [if_pos hq]
        have h3 := tokCount_getNextToken_le st₂
        show tokCount (getNextToken st₂) < tokCount st
        omega
      · rw [if_neg hq]
        show tokCount st₂ < tokCount st
        omega
    · rw [if_neg hp]
      exact h1
  | tok_eof =>
    right
    refine ⟨?_, by simp [parsePrototype, hst]⟩
    simp only [parsePrototype, hst]
    exact Unch.refl st
  | tok_def =>
    right
    refine ⟨?_, by simp [parsePrototype, hst]⟩
    simp only [parsePrototype, hst]
    exact Unch.refl st
  | tok_extern =>
    right
    refine ⟨?_, by simp [parsePrototype, hst]⟩
    simp only [parsePrototype, hst]
    exact Unch.refl st
  | tok_number v =>
    right
    refine ⟨?_, by simp [parsePrototype, hst]⟩
    simp only [parsePrototype, hst]
    exact Unch.refl st
  | tok_char c =>
    right
    refine ⟨?_, by simp [parsePrototype, hst]⟩
    simp only [parsePrototype, hst]
    exact Unch.refl st

theorem parsePrototype_le (fuel : ℕ) (st : ParserState) :
    tokCount (parsePrototype fuel st).2 ≤ tokCount st := by
  rcases parsePrototype_progress fuel st with h | ⟨hu, _⟩
  · exact le_of_lt h
  · exact le_of_eq hu.tokCount_eq

theorem parseExpression_le (fuel : ℕ) (st : ParserState) :
    tokCount (parseExpression fuel st).2 ≤ tokCount st := by
  rcases (parser_progress fuel).2.2.2.2.2 st with h | ⟨hu, _⟩
  · exact le_of_lt h
  · exact le_of_eq hu.tokCount_eq

theorem parseDefinition_progress (fuel : ℕ) (st : ParserState)
    (h : st.cur_tok ≠ Token.tok_eof) :
    tokCount (parseDefinition fuel st).2 < tokCount st := by
  have h1 : tokCount (getNextToken st) < tokCount st :=
    tokCount_getNextToken_lt st h
  simp only [parseDefinition]
  rcases hp : parsePrototype fuel (getNextToken st) with ⟨r, st₂⟩
  have h2 : tokCount st₂ ≤ tokCount (getNextToken st) := by
    have := parsePrototype_le fuel (getNextToken st)
    rw [hp] at this
    exact this
  cases r with
  | none =>
    simp only [hp]
    show tokCount st₂ < tokCount st
    omega
  | some proto =>
    simp only [hp]
    rcases he : parseExpression fuel st₂ with ⟨r₂, st₃⟩
    have h3 : tokCount st₃ ≤ tokCount st₂ := by
      have := parseExpression_le fuel st₂
      rw [he] at this
      exact this
    cases r₂ with
    | none =>
      show tokCount st₃ < tokCount st
      omega
    | some e =>
      show tokCount st₃ < tokCount st
      omega

theorem parseExtern_progress (fuel : ℕ) (st : ParserState)
    (h : st.cur_tok ≠ Token.tok_eof) :
    tokCount (parseExtern fuel st).2 < tokCount st := by
  have h1 : tokCount (getNextToken st) < tokCount st :=
    tokCount_getNextToken_lt st h
  have h2 : tokCount (parsePrototype fuel (getNextToken st)).2 ≤
      tokCount (getNextToken st) := parsePrototype_le fuel (getNextToken st)
  simp only [parseExtern]
  omega

theorem parseTopLevelExpr_progress (fuel : ℕ) (st : ParserState) :
    tokCount (parseTopLevelExpr fuel st).2 < tokCount st ∨
      (Unch st (parseTopLevelExpr fuel st).2 ∧
        (parseTopLevelExpr fuel st).1 = none) := by
  have hE := (parser_progress fuel).2.2.2.2.2 st
  simp only [parseTopLevelExpr]
  rcases he : parseExpression fuel st with ⟨r, st₁⟩
  rw [he] at hE
  cases r with
  | none =>
    simp only [he]
    rcases hE with h | ⟨hu, _⟩
    · exact Or.inl h
    · exact Or.inr ⟨hu, by trivial⟩
  | some e =>
    simp only [he]
    left
    rcases hE with h | ⟨_, hn⟩
    · exact h
    · simp at hn

theorem handleDefinition_lt (fuel : ℕ) (st : ParserState)
    (h : st.cur_tok = Token.tok_def) :
    tokCount (handleDefinition fuel st) < tokCount st := by
  have hd := parseDefinition_progress fuel st (by simp [h])
  simp only [handleDefinition]
  rcases hp : parseDefinition fuel st with ⟨r, st₁⟩
  have hd' : tokCount st₁ < tokCount st := by
    rw [hp] at hd
    exact hd
  cases r with
  | some f => exact hd'
  | none => exact lt_of_le_of_lt (tokCount_getNextToken_le st₁) hd'

theorem handleExtern_lt (fuel : ℕ) (st : ParserState)
    (h : st.cur_tok = Token.tok_extern) :
    tokCount (handleExtern fuel st) < tokCount st := by
  have hd := parseExtern_progress fuel st (by simp [h])
  simp only [handleExtern]
  rcases hp : parseExtern fuel st with ⟨r, st₁⟩
  have hd' : tokCount st₁ < tokCount st := by
    rw [hp] at hd
    exact hd
  cases r with
  | some f => exact hd'
  | none => exact lt_of_le_of_lt (tokCount_getNextToken_le st₁) hd'

theorem handleTopLevelExpression_lt (fuel : ℕ) (st : ParserState)
    (h : st.cur_tok ≠ Token.tok_eof) :
    tokCount (handleTopLevelExpression fuel st) < tokCount st := by
  have ht := parseTopLevelExpr_progress fuel st
  simp only [handleTopLevelExpression]
  rcases hp : parseTopLevelExpr fuel st with ⟨r, st₁⟩
  rw [hp] at ht
  cases r with
  | some f =>
    rcases ht with hlt | ⟨_, hn⟩
    · exact hlt
    · simp at hn
  | none =>
    rcases ht with hlt | ⟨hu, _⟩
    · exact lt_of_le_of_lt (tokCount_getNextToken_le st₁) hlt
    · have he : tokCount st₁ = tokCount st := hu.tokCount_eq
      have h2 : st₁.cur_tok = st.cur_tok := hu.1
      have h3 := tokCount_getNextToken_lt st₁ (by rw [h2]; exact h)
      show tokCount (getNextToken st₁) < tokCount st
      omega

/-- C7: one driver-loop iteration returns "stop" exactly when the current
token is the end-of-input token, and every non-terminating iteration
strictly decreases the count of unconsumed tokens-plus-characters —
whether it skips a ';', parses a construct, or performs the one-token
error recovery — so the loop cannot spin forever on any finite input. -/
theorem C7_driver_loop_progress (fuel : ℕ) (st : ParserState) :
    (mainLoopStep fuel st = none ↔ st.cur_tok = Token.tok_eof) ∧
    (∀ st', mainLoopStep fuel st = some st' → tokCount st' < tokCount st) := by
  cases hst : st.cur_tok with
  | tok_eof =>
    constructor
    · simp [mainLoopStep, hst]
    · intro st' h
      simp [mainLoopStep, hst] at h
  | tok_def =>
    constructor
    · simp [mainLoopStep, hst]
    · intro st' h
      simp only [mainLoopStep, hst, Option.some.injEq] at h
      rw [← h]
      exact handleDefinition_lt fuel st hst
  | tok_extern =>
    constructor
    · simp [mainLoopStep, hst]
    · intro st' h
      simp only [mainLoopStep, hst, Option.some.injEq] at h
      rw [← h]
      exact handleExtern_lt fuel st hst
  | tok_identifier s =>
    constructor
    · simp [mainLoopStep, hst]
    · intro st' h
      simp only [mainLoopStep, hst, Option.some.injEq] at h
      rw [← h]
      exact handleTopLevelExpression_lt fuel st (by simp [hst])
  | tok_number v =>
    constructor
    · simp [mainLoopStep, hst]
    · intro st' h
      simp only [mainLoopStep, hst, Option.some.injEq] at h
      rw [← h]
      exact handleTopLevelExpression_lt fuel st (by simp [hst])
  | tok_char c =>
    constructor
    · simp [mainLoopStep, hst]
      split <;> simp
    · intro st' h
      by_cases hc : c = ';'
      · subst hc
        simp only [mainLoopStep, hst, if_true, eq_self_iff_true,
          Option.some.injEq] at h
        subst h
        exact tokCount_getNextToken_lt st (by simp [hst])
      · simp only [mainLoopStep, hst, if_neg hc, Option.some.injEq] at h
        rw [← h]
        exact handleTopLevelExpression_lt fuel st (by simp [hst])

/-- C7 witness: on the input ";" the loop does not stop and the measure
strictly decreases. -/
theorem C7_witness :
    mainLoopStep 2 (initState ";") = some (getNextToken (initState ";")) ∧
    tokCount (getNextToken (initState ";")) < tokCount (initState ";") :=
  ⟨rfl, (C7_driver_loop_progress 2 (initState ";")).2
    (getNextToken (initState ";")) rfl⟩

/-- C6: every parse failure is a returned `none` (the embedding is total
and returns an `Option`, mirroring the null-returning C code); on a
failed dispatch of a definition, an extern, or a top-level expression,
the driver performs exactly one forced `getNextToken` on the state the
failed parse left behind, and surfaces no tree (the handlers discard the
parse result). -/
theorem C6_failure_recovery_one_token (fuel : ℕ) (st : ParserState) :
    (st.cur_tok = Token.tok_def → (parseDefinition fuel st).1 = none →
      mainLoopStep fuel st =
        some (getNextToken (parseDefinition fuel st).2)) ∧
    (st.cur_tok = Token.tok_extern → (parseExtern fuel st).1 = none →
      mainLoopStep fuel st = some (getNextToken (parseExtern fuel st).2)) ∧
    ((st.cur_tok ≠ Token.tok_eof ∧ st.cur_tok ≠ Token.tok_def ∧
        st.cur_tok ≠ Token.tok_extern ∧ st.cur_tok ≠ Token.tok_char ';') →
      (parseTopLevelExpr fuel st).1 = none →
      mainLoopStep fuel st =
        some (getNextToken (parseTopLevelExpr fuel st).2)) := by
  refine ⟨fun h hn => ?_, fun h hn => ?_, fun h hn => ?_⟩
  · simp only [mainLoopStep, h, handleDefinition]
    rcases hp : parseDefinition fuel st with ⟨r, st₁⟩
    rw [hp] at hn
    simp only at hn
    subst hn
    rfl
  · simp only [mainLoopStep, h, handleExtern]
    rcases hp : parseExtern fuel st with ⟨r, st₁⟩
    rw [hp] at hn
    simp only at hn
    subst hn
    rfl
  · obtain ⟨h1, h2, h3, h4⟩ := h
    have hstep : mainLoopStep fuel st =
        some (handleTopLevelExpression fuel st) := by
      cases hst : st.cur_tok with
      | tok_eof => exact absurd hst h1
      | tok_def => exact absurd hst h2
      | tok_extern => exact absurd hst h3
      | tok_identifier s => simp [mainLoopStep, hst]
      | tok_number v => simp [mainLoopStep, hst]
      | tok_char c =>
        have hc : c ≠ ';' := by
          intro hcc
          exact h4 (by rw [hst, hcc])
        simp [mainLoopStep, hst, hc]
    rw [hstep]
    simp only [handleTopLevelExpression]
    rcases hp : parseTopLevelExpr fuel st with ⟨r, st₁⟩
    rw [hp] at hn
    simp only at hn
    subst hn
    rfl

/-- C6 witness: "def 1" fails the definition parse (no function name
follows `def`), and the driver's next step is exactly one forced token
advance past the failure state. -/
theorem C6_witness :
    (initState "def 1").cur_tok = Token.tok_def ∧
    (parseDefinition 20 (initState "def 1")).1 = none ∧
    mainLoopStep 20 (initState "def 1") =
      some (getNextToken (parseDefinition 20 (initState "def 1")).2) :=
  ⟨rfl, rfl,
    (C6_failure_recovery_one_token 20 (initState "def 1")).1 rfl rfl⟩


theorem mapAccess_fst (m : PrecTable) (c : Char) :
    (mapAccess m c).1 = precOf m c := by
  unfold mapAccess precOf
  cases lookupPrec m c <;> simp

theorem precOf_getTokPrecedence (t : Token) (m : PrecTable) (c : Char) :
    precOf (getTokPrecedence t m).2 c = precOf m c := by
  cases t with
  | tok_char d =>
    by_cases hd : isascii d = true
    · rcases hm : mapAccess m d with ⟨v, m₁⟩
      have hpm := precOf_mapAccess m d c
      rw [hm] at hpm
      by_cases hv : v ≤ 0 <;> simp [getTokPrecedence, hd, hm, hv, hpm]
    · simp [getTokPrecedence, hd]
  | tok_eof => rfl
  | tok_def => rfl
  | tok_extern => rfl
  | tok_identifier s => rfl
  | tok_number v => rfl

theorem goodTable_getTokPrecedence (t : Token) (m : PrecTable)
    (h : GoodTable m) : GoodTable (getTokPrecedence t m).2 := by
  intro c hc
  rw [precOf_getTokPrecedence] at hc
  exact h c hc

theorem getTokPrecedence_pos (t : Token) (m : PrecTable)
    (h : 0 < (getTokPrecedence t m).1) :
    ∃ c, t = Token.tok_char c ∧ precOf m c = (getTokPrecedence t m).1 := by
  cases t with
  | tok_char d =>
    refine ⟨d, rfl, ?_⟩
    by_cases hd : isascii d = true
    · rcases hm : mapAccess m d with ⟨v, m₁⟩
      have hf := mapAccess_fst m d
      rw [hm] at hf
      by_cases hv : v ≤ 0
      · simp [getTokPrecedence, hd, hm, hv] at h
      · simp [getTokPrecedence, hd, hm, hv]
        exact hf.symm
    · simp [getTokPrecedence, hd] at h
  | tok_eof => simp [getTokPrecedence] at h
  | tok_def => simp [getTokPrecedence] at h
  | tok_extern => simp [getTokPrecedence] at h
  | tok_identifier s => simp [getTokPrecedence] at h
  | tok_number v => simp [getTokPrecedence] at h

theorem parseNumberExpr_ops (st : ParserState) :
    (∀ c, precOf (parseNumberExpr st).2.prec c = precOf st.prec c) ∧
    (∀ e, (parseNumberExpr st).1 = some e → goodOps e = true) := by
  unfold parseNumberExpr
  split
  · rename_i v h
    constructor
    · intro c
      rw [getNextToken_prec]
    · intro e he
      simp only [Option.some.injEq] at he
      rw [← he]
      simp [goodOps]
  · constructor
    · intro c
      rfl
    · intro e he
      simp at he

theorem goodOpsList_append (xs : List ExprAST) (e : ExprAST)
    (hxs : goodOpsList xs = true) (he : goodOps e = true) :
    goodOpsList (xs ++ [e]) = true := by
  induction xs with
  | nil => simp [goodOpsList, he]
  | cons x rest ih =>
    simp only [goodOpsList, List.cons_append, Bool.and_eq_true] at hxs ⊢
    exact ⟨hxs.1, ih hxs.2⟩

theorem getTokPrecedence_fst (t : Token) (m : PrecTable) :
    (getTokPrecedence t m).1 = -1 ∨ 0 < (getTokPrecedence t m).1 := by
  cases t with
  | tok_char d =>
    by_cases hd : isascii d = true
    · rcases hm : mapAccess m d with ⟨v, m₁⟩
      by_cases hv : v ≤ 0
      · simp [getTokPrecedence, hd, hm, hv]
      · simp [getTokPrecedence, hd, hm, hv]
        omega
    · simp [getTokPrecedence, hd]
  | tok_eof => exact Or.inl rfl
  | tok_def => exact Or.inl rfl
  | tok_extern => exact Or.inl rfl
  | tok_identifier s => exact Or.inl rfl
  | tok_number v => exact Or.inl rfl

theorem parser_ops (fuel : ℕ) :
    (∀ st, (∀ c, precOf (parsePrimary fuel st).2.prec c = precOf st.prec c) ∧
      (GoodTable st.prec → ∀ e, (parsePrimary fuel st).1 = some e →
        goodOps e = true)) ∧
    (∀ st, (∀ c, precOf (parseParenExpr fuel st).2.prec c =
        precOf st.prec c) ∧
      (GoodTable st.prec → ∀ e, (parseParenExpr fuel st).1 = some e →
        goodOps e = true)) ∧
    (∀ st, (∀ c, precOf (parseIdentifierExpr fuel st).2.prec c =
        precOf st.prec c) ∧
      (GoodTable st.prec → ∀ e, (parseIdentifierExpr fuel st).1 = some e →
        goodOps e = true)) ∧
    (∀ args st, (∀ c, precOf (parseArgs fuel args st).2.prec c =
        precOf st.prec c) ∧
      (GoodTable st.prec → goodOpsList args = true →
        ∀ l, (parseArgs fuel args st).1 = some l → goodOpsList l = true)) ∧
    (∀ prec lhs st, (∀ c, precOf (parseBinOpRHS fuel prec lhs st).2.prec c =
        precOf st.prec c) ∧
      (0 ≤ prec → GoodTable st.prec → goodOps lhs = true →
        ∀ e, (parseBinOpRHS fuel prec lhs st).1 = some e →
          goodOps e = true)) ∧
    (∀ st, (∀ c, precOf (parseExpression fuel st).2.prec c =
        precOf st.prec c) ∧
      (GoodTable st.prec → ∀ e, (parseExpression fuel st).1 = some e →
        goodOps e = true)) := by
  induction fuel with
  | zero =>
    refine ⟨fun st => ⟨fun c => rfl, fun _ e he => by simp [parsePrimary] at he⟩,
      fun st => ⟨fun c => rfl, fun _ e he => by simp [parseParenExpr] at he⟩,
      fun st => ⟨fun c => rfl, fun _ e he => by simp [parseIdentifierExpr] at he⟩,
      fun args st => ⟨fun c => rfl, fun _ _ l hl => by simp [parseArgs] at hl⟩,
      fun prec lhs st =>
        ⟨fun c => rfl, fun _ _ _ e he => by simp [parseBinOpRHS] at he⟩,
      fun st => ⟨fun c => rfl, fun _ e he => by simp [parseExpression] at he⟩⟩
  | succ n ih =>
    obtain ⟨ihP, ihParen, ihId, ihArgs, ihBin, ihExpr⟩ := ih
    have hParen : ∀ st,
        (∀ c, precOf (parseParenExpr (n + 1) st).2.prec c =
          precOf st.prec c) ∧
        (GoodTable st.prec → ∀ e, (parseParenExpr (n + 1) st).1 = some e →
          goodOps e = true) := by
      intro st
      simp only [parseParenExpr]
      rcases he : parseExpression n (getNextToken st) with ⟨r, st₂⟩
      obtain ⟨hE1, hE2⟩ := ihExpr (getNextToken st)
      rw [he] at hE1 hE2
      have hE1' : ∀ c, precOf st₂.prec c = precOf (getNextToken st).prec c :=
        fun c => hE1 c
      cases r with
      | none =>
        refine ⟨fun c => ?_, fun hg e h => by simp at h⟩
        show precOf st₂.prec c = precOf st.prec c
        rw [hE1' c, getNextToken_prec]
      | some v =>
        by_cases hrp : st₂.cur_tok = Token.tok_char ')'
        · simp only [hrp, if_true]
          refine ⟨fun c => ?_, fun hg e h => ?_⟩
          · show precOf (getNextToken st₂).prec c = precOf st.prec c
            rw [getNextToken_prec, hE1' c, getNextToken_prec]
          · have h' : v = e := by simpa using h
            rw [← h']
            have hg' : GoodTable (getNextToken st).prec := by
              rw [getNextToken_prec]
              exact hg
            exact hE2 hg' v rfl
        · simp only [if_neg hrp]
          refine ⟨fun c => ?_, fun hg e h => by simp at h⟩
          show precOf st₂.prec c = precOf st.prec c
          rw [hE1' c, getNextToken_prec]
    have hExpr : ∀ st,
        (∀ c, precOf (parseExpression (n + 1) st).2.prec c =
          precOf st.prec c) ∧
        (GoodTable st.prec → ∀ e, (parseExpression (n + 1) st).1 = some e →
          goodOps e = true) := by
      intro st
      simp only [parseExpression]
      rcases hp : parsePrimary n st with ⟨r, st₁⟩
      obtain ⟨hP1, hP2⟩ := ihP st
      rw [hp] at hP1 hP2
      have hP1' : ∀ c, precOf st₁.prec c = precOf st.prec c :=
        fun c => hP1 c
      cases r with
      | none =>
        exact ⟨fun c => hP1' c, fun hg e h => by simp at h⟩
      | some lhs =>
        obtain ⟨hB1, hB2⟩ := ihBin 0 lhs st₁
        refine ⟨fun c => ?_, fun hg e h => ?_⟩
        · show precOf (parseBinOpRHS n 0 lhs st₁).2.prec c = precOf st.prec c
          rw [hB1 c, hP1' c]
        · have h' : (parseBinOpRHS n 0 lhs st₁).1 = some e := h
          have hlhs : goodOps lhs = true := hP2 hg lhs rfl
          have hg₁ : GoodTable st₁.prec := fun c hc => hg c (hP1' c ▸ hc)
          exact hB2 (le_refl 0) hg₁ hlhs e h'
    have hPrim : ∀ st,
        (∀ c, precOf (parsePrimary (n + 1) st).2.prec c = precOf st.prec c) ∧
        (GoodTable st.prec → ∀ e, (parsePrimary (n + 1) st).1 = some e →
          goodOps e = true) := by
      intro st
      cases hst : st.cur_tok with
      | tok_identifier s =>
        obtain ⟨h1, h2⟩ := ihId st
        refine ⟨fun c => ?_, fun hg e he => ?_⟩
        · have := h1 c
          simpa [parsePrimary, hst] using this
        · apply h2 hg e
          simpa [parsePrimary, hst] using he
      | tok_number v =>
        obtain ⟨h1, h2⟩ := parseNumberExpr_ops st
        refine ⟨fun c => ?_, fun hg e he => ?_⟩
        · have := h1 c
          simpa [parsePrimary, hst] using this
        · apply h2 e
          simpa [parsePrimary, hst] using he
      | tok_char c =>
        by_cases hc : c = '('
        · subst hc
          obtain ⟨h1, h2⟩ := ihParen st
          refine ⟨fun c' => ?_, fun hg e he => ?_⟩
          · have := h1 c'
            simpa [parsePrimary, hst] using this
          · apply h2 hg e
            simpa [parsePrimary, hst] using he
        · refine ⟨fun c' => by simp [parsePrimary, hst, hc],
            fun hg e he => by simp [parsePrimary, hst, hc] at he⟩
      | tok_eof =>
        exact ⟨fun c => by simp [parsePrimary, hst],
          fun hg e he => by simp [parsePrimary, hst] at he⟩
      | tok_def =>
        exact ⟨fun c => by simp [parsePrimary, hst],
          fun hg e he => by simp [parsePrimary, hst] at he⟩
      | tok_extern =>
        exact ⟨fun c => by simp [parsePrimary, hst],
          fun hg e he => by simp [parsePrimary, hst] at he⟩
    have hArgs : ∀ args st,
        (∀ c, precOf (parseArgs (n + 1) args st).2.prec c =
          precOf st.prec c) ∧
        (GoodTable st.prec → goodOpsList args = true →
          ∀ l, (parseArgs (n + 1) args st).1 = some l →
            goodOpsList l = true) := by
      intro args st
      simp only [parseArgs]
      rcases he : parseExpression n st with ⟨r, st₁⟩
      obtain ⟨hE1, hE2⟩ := ihExpr st
      rw [he] at hE1 hE2
      have hE1' : ∀ c, precOf st₁.prec c = precOf st.prec c :=
        fun c => hE1 c
      cases r with
      | none =>
        exact ⟨fun c => hE1' c, fun hg hargs l hl => by simp at hl⟩
      | some arg =>
        have harg : GoodTable st.prec → goodOps arg = true :=
          fun hg => hE2 hg arg rfl
        by_cases h1 : st₁.cur_tok = Token.tok_char ')'
        · simp only [h1, if_true]
          refine ⟨fun c => hE1' c, fun hg hargs l hl => ?_⟩
          have hl' : args ++ [arg] = l := by simpa using hl
          rw [← hl']
          exact goodOpsList_append args arg hargs (harg hg)
        · simp only [if_neg h1]
          by_cases h2 : st₁.cur_tok = Token.tok_char ','
          · simp only [h2, if_true]
            rcases ha : parseArgs n (args ++ [arg]) (getNextToken st₁) with
              ⟨r₂, st₂⟩
            obtain ⟨hA1, hA2⟩ := ihArgs (args ++ [arg]) (getNextToken st₁)
            rw [ha] at hA1 hA2
            have hA1' : ∀ c, precOf st₂.prec c =
                precOf (getNextToken st₁).prec c := fun c => hA1 c
            refine ⟨fun c => ?_, fun hg hargs l hl => ?_⟩
            · show precOf st₂.prec c = precOf st.prec c
              rw [hA1' c, getNextToken_prec, hE1' c]
            · have hl' : r₂ = some l := hl
              have hgl : GoodTable (getNextToken st₁).prec := by
                rw [getNextToken_prec]
                intro c hc
                exact hg c (hE1' c ▸ hc)
              have hgargs : goodOpsList (args ++ [arg]) = true :=
                goodOpsList_append args arg hargs (harg hg)
              exact hA2 hgl hgargs l hl'
          · simp only [if_neg h2]
            exact ⟨fun c => hE1' c, fun hg hargs l hl => by simp at hl⟩
    have hId : ∀ st,
        (∀ c, precOf (parseIdentifierExpr (n + 1) st).2.prec c =
          precOf st.prec c) ∧
        (GoodTable st.prec → ∀ e, (parseIdentifierExpr (n + 1) st).1 = some e →
          goodOps e = true) := by
      intro st
      cases hst : st.cur_tok with
      | tok_identifier id_name =>
        simp only [parseIdentifierExpr, hst]
        by_cases hp : (getNextToken st).cur_tok = Token.tok_char '('
        · simp only [hp, if_true]
          by_cases hq : (getNextToken (getNextToken st)).cur_tok =
              Token.tok_char ')'
          · simp only [hq, if_true]
            refine ⟨fun c => ?_, fun hg e he => ?_⟩
            · show precOf
                (getNextToken (getNextToken (getNextToken st))).prec c =
                precOf st.prec c
              rw [getNextToken_prec, getNextToken_prec, getNextToken_prec]
            · have he' : ExprAST.CallExprAST id_name [] = e := by
                simpa using he
              rw [← he']
              simp [goodOps, goodOpsList]
          · simp only [if_neg hq]
            rcases ha : parseArgs n [] (getNextToken (getNextToken st)) with
              ⟨r, st₃⟩
            obtain ⟨hA1, hA2⟩ := ihArgs [] (getNextToken (getNextToken st))
            rw [ha] at hA1 hA2
            have hA1' : ∀ c, precOf st₃.prec c =
                precOf (getNextToken (getNextToken st)).prec c :=
              fun c => hA1 c
            cases r with
            | none =>
              refine ⟨fun c => ?_, fun hg e he => by simp at he⟩
              show precOf st₃.prec c = precOf st.prec c
              rw [hA1' c, getNextToken_prec, getNextToken_prec]
            | some args =>
              refine ⟨fun c => ?_, fun hg e he => ?_⟩
              · show precOf (getNextToken st₃).prec c = precOf st.prec c
                rw [getNextToken_prec, hA1' c, getNextToken_prec,
                  getNextToken_prec]
              · have he' : ExprAST.CallExprAST id_name args = e := by
                  simpa using he
                rw [← he']
                have hg₂ : GoodTable (getNextToken (getNextToken st)).prec := by
                  rw [getNextToken_prec, getNextToken_prec]
                  exact hg
                have hargs : goodOpsList args = true :=
                  hA2 hg₂ rfl args rfl
                simp [goodOps, hargs]
        · simp only [if_neg hp]
          refine ⟨fun c => ?_, fun hg e he => ?_⟩
          · show precOf (getNextToken st).prec c = precOf st.prec c
            rw [getNextToken_prec]
          · have he' : ExprAST.VariableExprAST id_name = e := by simpa using he
            rw [← he']
            simp [goodOps]
      | tok_eof =>
        exact ⟨fun c => by simp [parseIdentifierExpr, hst],
          fun hg e he => by simp [parseIdentifierExpr, hst] at he⟩
      | tok_def =>
        exact ⟨fun c => by simp [parseIdentifierExpr, hst],
          fun hg e he => by simp [parseIdentifierExpr, hst] at he⟩
      | tok_extern =>
        exact ⟨fun c => by simp [parseIdentifierExpr, hst],
          fun hg e he => by simp [parseIdentifierExpr, hst] at he⟩
      | tok_number v =>
        exact ⟨fun c => by simp [parseIdentifierExpr, hst],
          fun hg e he => by simp [parseIdentifierExpr, hst] at he⟩
      | tok_char c =>
        exact ⟨fun c' => by simp [parseIdentifierExpr, hst],
          fun hg e he => by simp [parseIdentifierExpr, hst] at he⟩
    have hBin : ∀ prec lhs st,
        (∀ c, precOf (parseBinOpRHS (n + 1) prec lhs st).2.prec c =
          precOf st.prec c) ∧
        (0 ≤ prec → GoodTable st.prec → goodOps lhs = true →
          ∀ e, (parseBinOpRHS (n + 1) prec lhs st).1 = some e →
            goodOps e = true) := by
      intro prec lhs st
      simp only [parseBinOpRHS]
      rcases hq : getTokPrecedence st.cur_tok st.prec with ⟨tp, m₁⟩
      simp only [hq]
      have hq1 : ∀ c, precOf m₁ c = precOf st.prec c := by
        intro c
        have h0 := precOf_getTokPrecedence st.cur_tok st.prec c
        rw [hq] at h0
        exact h0
      by_cases hcmp : tp < prec
      · simp only [hcmp, if_true]
        refine ⟨fun c => hq1 c, fun _ _ hlhs e he => ?_⟩
        have he' : lhs = e := by simpa using he
        rw [← he']
        exact hlhs
      · simp only [hcmp, if_false]
        have htp : tp = -1 ∨ 0 < tp := by
          have h0 := getTokPrecedence_fst st.cur_tok st.prec
          rw [hq] at h0
          exact h0
        cases hct : st.cur_tok with
        | tok_char bin_op =>
          have hq' : getTokPrecedence (Token.tok_char bin_op) st.prec =
              (tp, m₁) := by
            rw [← hct]
            exact hq
          rcases hp : parsePrimary n (getNextToken
              { cur_tok := Token.tok_char bin_op, last_char := st.last_char,
                input := st.input, prec := m₁ }) with ⟨r, st₃⟩
          obtain ⟨hP1, hP2⟩ := ihP (getNextToken
              { cur_tok := Token.tok_char bin_op, last_char := st.last_char,
                input := st.input, prec := m₁ })
          rw [hp] at hP1 hP2
          have hgp : (getNextToken
              { cur_tok := Token.tok_char bin_op, last_char := st.last_char,
                input := st.input, prec := m₁ }).prec = m₁ :=
            getNextToken_prec _
          have hP1' : ∀ c, precOf st₃.prec c = precOf m₁ c := by
            intro c
            have h0 := hP1 c
            rw [hgp] at h0
            exact h0
          simp only [hp]
          cases r with
          | none =>
            refine ⟨fun c => ?_, fun _ _ _ e he => by simp at he⟩
            show precOf st₃.prec c = precOf st.prec c
            rw [hP1' c, hq1 c]
          | some rhs =>
            rcases hq₂ : getTokPrecedence st₃.cur_tok st₃.prec with ⟨np, m₂⟩
            simp only [hq₂]
            have hq2' : ∀ c, precOf m₂ c = precOf st₃.prec c := by
              intro c
              have h0 := precOf_getTokPrecedence st₃.cur_tok st₃.prec c
              rw [hq₂] at h0
              exact h0
            by_cases hcmp₂ : tp < np
            · simp only [hcmp₂, if_true]
              rcases hr : parseBinOpRHS n (tp + 1) rhs { st₃ with prec := m₂ }
                with ⟨r₂, st₅⟩
              obtain ⟨hB1, hB2⟩ := ihBin (tp + 1) rhs { st₃ with prec := m₂ }
              rw [hr] at hB1 hB2
              have hB1' : ∀ c, precOf st₅.prec c = precOf m₂ c :=
                fun c => hB1 c
              cases r₂ with
              | none =>
                refine ⟨fun c => ?_, fun _ _ _ e he => by simp at he⟩
                show precOf st₅.prec c = precOf st.prec c
                rw [hB1' c, hq2' c, hP1' c, hq1 c]
              | some rhs₁ =>
                obtain ⟨hB21, hB22⟩ :=
                  ihBin prec (ExprAST.BinaryExprAST bin_op lhs rhs₁) st₅
                refine ⟨fun c => ?_, fun hprec hg hlhs e he => ?_⟩
                · show precOf (parseBinOpRHS n prec
                    (ExprAST.BinaryExprAST bin_op lhs rhs₁) st₅).2.prec c =
                    precOf st.prec c
                  rw [hB21 c, hB1' c, hq2' c, hP1' c, hq1 c]
                · have he' : (parseBinOpRHS n prec
                      (ExprAST.BinaryExprAST bin_op lhs rhs₁) st₅).1 =
                      some e := he
                  have htp_pos : 0 < tp := by
                    rcases htp with h | h
                    · omega
                    · exact h
                  have hreg : isRegisteredOp bin_op = true := by
                    obtain ⟨c₀, hc₀, hpc⟩ := getTokPrecedence_pos
                      (Token.tok_char bin_op) st.prec (by rw [hq']; exact htp_pos)
                    have hbc : bin_op = c₀ := by
                      injection hc₀
                    rw [hq'] at hpc
                    rw [hbc]
                    apply hg c₀
                    rw [hpc]
                    exact htp_pos
                  have hgm₁ : GoodTable m₁ := fun c hc => hg c (hq1 c ▸ hc)
                  have hgg : GoodTable (getNextToken
                      { cur_tok := Token.tok_char bin_op,
                        last_char := st.last_char, input := st.input,
                        prec := m₁ }).prec := by
                    rw [hgp]
                    exact hgm₁
                  have hrhs : goodOps rhs = true := hP2 hgg rhs rfl
                  have hg₃ : GoodTable st₃.prec :=
                    fun c hc => hgm₁ c (hP1' c ▸ hc)
                  have hgm₂ : GoodTable m₂ := fun c hc => hg₃ c (hq2' c ▸ hc)
                  have hrhs₁ : goodOps rhs₁ = true :=
                    hB2 (by omega) hgm₂ hrhs rhs₁ rfl
                  have hg₅ : GoodTable st₅.prec :=
                    fun c hc => hgm₂ c (hB1' c ▸ hc)
                  have hmerged : goodOps
                      (ExprAST.BinaryExprAST bin_op lhs rhs₁) = true := by
                    simp [goodOps, hreg, hlhs, hrhs₁]
                  exact hB22 hprec hg₅ hmerged e he'
            · simp only [hcmp₂, if_false]
              obtain ⟨hB21, hB22⟩ := ihBin prec
                (ExprAST.BinaryExprAST bin_op lhs rhs) { st₃ with prec := m₂ }
              refine ⟨fun c => ?_, fun hprec hg hlhs e he => ?_⟩
              · show precOf (parseBinOpRHS n prec
                  (ExprAST.BinaryExprAST bin_op lhs rhs)
                  { st₃ with prec := m₂ }).2.prec c = precOf st.prec c
                rw [hB21 c]
                have h0 : precOf ({ st₃ with prec := m₂ } :
                    ParserState).prec c = precOf m₂ c := rfl
                rw [h0, hq2' c, hP1' c, hq1 c]
              · have he' : (parseBinOpRHS n prec
                    (ExprAST.BinaryExprAST bin_op lhs rhs)
                    { st₃ with prec := m₂ }).1 = some e := he
                have htp_pos : 0 < tp := by
                  rcases htp with h | h
                  · omega
                  · exact h
                have hreg : isRegisteredOp bin_op = true := by
                  obtain ⟨c₀, hc₀, hpc⟩ := getTokPrecedence_pos
                    (Token.tok_char bin_op) st.prec (by rw [hq']; exact htp_pos)
                  have hbc : bin_op = c₀ := by
                    injection hc₀
                  rw [hq'] at hpc
                  rw [hbc]
                  apply hg c₀
                  rw [hpc]
                  exact htp_pos
                have hgm₁ : GoodTable m₁ := fun c hc => hg c (hq1 c ▸ hc)
                have hgg : GoodTable (getNextToken
                    { cur_tok := Token.tok_char bin_op,
                      last_char := st.last_char, input := st.input,
                      prec := m₁ }).prec := by
                  rw [hgp]
                  exact hgm₁
                have hrhs : goodOps rhs = true := hP2 hgg rhs rfl
                have hg₃ : GoodTable st₃.prec :=
                  fun c hc => hgm₁ c (hP1' c ▸ hc)
                have hgm₂ : GoodTable ({ st₃ with prec := m₂ } :
                    ParserState).prec := fun c hc => hg₃ c (hq2' c ▸ hc)
                have hmerged : goodOps
                    (ExprAST.BinaryExprAST bin_op lhs rhs) = true := by
                  simp [goodOps, hreg, hlhs, hrhs]
                exact hB22 hprec hgm₂ hmerged e he'
        | tok_eof =>
          exact ⟨fun c => hq1 c, fun _ _ _ e he => by simp at he⟩
        | tok_def =>
          exact ⟨fun c => hq1 c, fun _ _ _ e he => by simp at he⟩
        | tok_extern =>
          exact ⟨fun c => hq1 c, fun _ _ _ e he => by simp at he⟩
        | tok_identifier s =>
          exact ⟨fun c => hq1 c, fun _ _ _ e he => by simp at he⟩
        | tok_number v =>
          exact ⟨fun c => hq1 c, fun _ _ _ e he => by simp at he⟩
    exact ⟨hPrim, hParen, hId, hArgs, hBin, hExpr⟩

theorem goodTable_initPrec : GoodTable initPrec := by
  intro c hc
  by_cases h1 : c = '<'
  · simp [isRegisteredOp, h1]
  by_cases h2 : c = '+'
  · simp [isRegisteredOp, h2]
  by_cases h3 : c = '-'
  · simp [isRegisteredOp, h3]
  by_cases h4 : c = '*'
  · simp [isRegisteredOp, h4]
  exfalso
  simp [precOf, initPrec, lookupPrec, Ne.symm h1, Ne.symm h2, Ne.symm h3,
    Ne.symm h4] at hc

/-- C9: whenever the precedence table's positive entries are all
registered operator characters — as they are after `main`'s
initialization — every tree `parseExpression` returns has each
`BinaryExprAST` op among '<', '+', '-', '*': `parseBinOpRHS` builds a
node only after the precedence query returns a positive value. -/
theorem C9_binary_ops_are_registered (fuel : ℕ) (st : ParserState)
    (hm : GoodTable st.prec) (e : ExprAST)
    (h : (parseExpression fuel st).1 = some e) :
    goodOps e = true :=
  ((parser_ops fuel).2.2.2.2.2 st).2 hm e h

/-- C9 witness: the tree parsed from "1+2*3" under the initial table has
only registered operators. -/
theorem C9_witness :
    GoodTable (initState "1+2*3").prec ∧
    goodOps (ExprAST.BinaryExprAST '+' (ExprAST.NumberExprAST 1)
      (ExprAST.BinaryExprAST '*' (ExprAST.NumberExprAST 2)
        (ExprAST.NumberExprAST 3))) = true :=
  ⟨goodTable_initPrec, C9_binary_ops_are_registered 12 (initState "1+2*3")
    goodTable_initPrec
    (ExprAST.BinaryExprAST '+' (ExprAST.NumberExprAST 1)
      (ExprAST.BinaryExprAST '*' (ExprAST.NumberExprAST 2)
        (ExprAST.NumberExprAST 3))) rfl⟩
